import Mathlib

/-!
Shallow embedding of the audio DSP kernels of `src/rust-dsp/src/lib.rs`:
the spectral engine (`FftProcessor`), the voice activity detector
(`VoiceActivityDetector`), the YIN pitch tracker (`PitchDetector`), the
LPC formant analyzer (`FormantAnalyzer`) and the windowed-sinc
`resample` function.

Modelling conventions:
* `f32` arithmetic is modelled exactly: by `ℚ` where the code only adds,
  multiplies, divides and compares, and by `ℝ` where transcendental
  functions (`sin`, `cos`, `log10`, `sqrt`) occur;
* Rust `usize` is modelled by `ℕ` (so `saturating_sub` is `ℕ`
  subtraction and integer division is floor division);
* a Rust panic (abort) is modelled by `Option.none`;
* the forward FFT of the spectral engine is an external crate
  (`rustfft`) and is kept as an opaque parameter `dft` of the model.
-/

namespace Fft

/-- Hann window coefficient, from `FftProcessor::new`:
`0.5 * (1.0 - cos(2π·i/(size-1)))`. -/
noncomputable def hann (size i : ℕ) : ℝ :=
  1 / 2 * (1 - Real.cos (2 * Real.pi * (i : ℝ) / ((size : ℝ) - 1)))

/-- Contents of the transform buffer just before the FFT runs, from the
two copy loops of `FftProcessor::power_spectrum`: windowed samples for
`i < min len size`, zero padding above. -/
noncomputable def windowedBuf (size : ℕ) (samples : List ℝ) (i : ℕ) : ℂ :=
  if i < min samples.length size then ((samples.getD i 0 * hann size i : ℝ) : ℂ) else 0

/-- Model of `FftProcessor::power_spectrum`: run the forward transform
`dft` on the windowed buffer and return the first `size/2 + 1` bins as
`(re² + im²) · (1/size)`. -/
noncomputable def power_spectrum (size : ℕ) (dft : (ℕ → ℂ) → (ℕ → ℂ))
    (samples : List ℝ) : List ℝ :=
  (((List.range size).map (dft (windowedBuf size samples))).take (size / 2 + 1)).map
    (fun c => (c.re * c.re + c.im * c.im) * (1 / (size : ℝ)))

/-- Model of `FftProcessor::magnitude_db`. -/
noncomputable def magnitude_db (size : ℕ) (dft : (ℕ → ℂ) → (ℕ → ℂ))
    (samples : List ℝ) : List ℝ :=
  (power_spectrum size dft samples).map (fun p => 10 * Real.logb 10 (p + 1e-10))

end Fft

namespace Vad

/-- Number of analysis frames, from `VoiceActivityDetector::detect`:
`len.saturating_sub(frame_size) / hop_size + 1`. -/
def numFrames (frameSize hopSize : ℕ) (samples : List ℚ) : ℕ :=
  (samples.length - frameSize) / hopSize + 1

/-- Frame `i`: the slice `samples[i*hop .. min (i*hop + frame_size) len]`. -/
def frameAt (frameSize hopSize : ℕ) (samples : List ℚ) (i : ℕ) : List ℚ :=
  (samples.drop (i * hopSize)).take frameSize

/-- Count of adjacent sign changes, from the `windows(2)` filter
`(w[0] >= 0.0) != (w[1] >= 0.0)`. -/
def signChanges : List ℚ → ℕ
  | a :: b :: rest =>
    (if decide (0 ≤ a) = decide (0 ≤ b) then 0 else 1) + signChanges (b :: rest)
  | _ => 0

/-- Frame energy statistic `energy_db = 10·log10(energy/len + 1e-10)`. -/
noncomputable def energyDb (frame : List ℚ) : ℝ :=
  10 * Real.logb 10 ((((frame.map (fun s => s * s)).sum / (frame.length : ℚ) : ℚ) : ℝ) + 1e-10)

/-- Zero-crossing rate `zcr = signChanges / len`. -/
def zcr (frame : List ℚ) : ℚ :=
  (signChanges frame : ℚ) / (frame.length : ℚ)

/-- Per-frame speech test, line 150 of the source:
`energy_db > energy_threshold && zcr < zcr_threshold`. -/
def IsSpeech (eTh zTh : ℝ) (frame : List ℚ) : Prop :=
  eTh < energyDb frame ∧ (zcr frame : ℝ) < zTh

open Classical in
/-- Per-frame speech flags for the whole input. -/
noncomputable def speechFlags (frameSize hopSize : ℕ) (eTh zTh : ℝ)
    (samples : List ℚ) : List Bool :=
  (List.range (numFrames frameSize hopSize samples)).map
    (fun i => if IsSpeech eTh zTh (frameAt frameSize hopSize samples i) then true else false)

/-- Hangover state machine of `detect` (lines 152-161): a speech frame
resets the counter to `hang`; while the counter is positive the output
is `1` and the counter decrements, otherwise the output is `0`. -/
def hangover (hang : ℕ) : List Bool → ℕ → List ℕ
  | [], _ => []
  | f :: rest, c =>
    let c1 := if f then hang else c
    if 0 < c1 then 1 :: hangover hang rest (c1 - 1) else 0 :: hangover hang rest c1

/-- Counter value after the hangover machine has consumed `flags`
starting from counter `c` (derived state function of `hangover`). -/
def hangState (hang : ℕ) : List Bool → ℕ → ℕ
  | [], c => c
  | f :: rest, c =>
    let c1 := if f then hang else c
    if 0 < c1 then hangState hang rest (c1 - 1) else hangState hang rest c1

/-- Model of `VoiceActivityDetector::detect`. -/
noncomputable def detect (frameSize hopSize : ℕ) (eTh zTh : ℝ) (hang : ℕ)
    (samples : List ℚ) : List ℕ :=
  hangover hang (speechFlags frameSize hopSize eTh zTh samples) 0

/-- Segment-extraction loop of `get_segments` (lines 170-189): `i` is
the current frame index, `inSeg` and `start` are the `in_segment` and
`start` variables; the output is the flattened list of pushed values. -/
def segLoop (hopSize : ℕ) : List ℕ → ℕ → Bool → ℕ → List ℕ
  | [], i, inSeg, start => if inSeg then [start, i * hopSize] else []
  | v :: rest, i, inSeg, start =>
    if v = 1 ∧ inSeg = false then segLoop hopSize rest (i + 1) true (i * hopSize)
    else if v = 0 ∧ inSeg = true then
      start :: i * hopSize :: segLoop hopSize rest (i + 1) false start
    else segLoop hopSize rest (i + 1) inSeg start

/-- Model of `VoiceActivityDetector::get_segments`. -/
noncomputable def get_segments (frameSize hopSize : ℕ) (eTh zTh : ℝ) (hang : ℕ)
    (samples : List ℚ) : List ℕ :=
  segLoop hopSize (detect frameSize hopSize eTh zTh hang samples) 0 false 0

/-- Specification helper for C7: enumerate the maximal runs of `1`s of a
flag list, as `(start, end)` frame-index pairs with exclusive end.  The
argument `i` is the absolute index of the suffix head and the state
carries the start index of an open run. -/
def runsAux : List ℕ → ℕ → Option ℕ → List (ℕ × ℕ)
  | [], i, st => match st with | none => [] | some s => [(s, i)]
  | v :: rest, i, st =>
    match st with
    | none => if v = 1 then runsAux rest (i + 1) (some i) else runsAux rest (i + 1) none
    | some s =>
      if v = 1 then runsAux rest (i + 1) (some s) else (s, i) :: runsAux rest (i + 1) none

/-- Specification predicate for C7, from the spec's words: `(s, e)` is a
maximal run of `1`s in `flags` (`e` exclusive; an open run at the end of
the signal has `e = flags.length`). -/
def IsMaxRun (flags : List ℕ) (s e : ℕ) : Prop :=
  s < e ∧ e ≤ flags.length ∧ (∀ k, s ≤ k → k < e → flags.getD k 0 = 1) ∧
    (s = 0 ∨ flags.getD (s - 1) 0 ≠ 1) ∧ (e = flags.length ∨ flags.getD e 0 ≠ 1)

end Vad

namespace Pitch

/-- Modelled from the spec: the FFT-based autocorrelation of
`compute_autocorrelation` (lines 245-281) round-trips through `rustfft`,
an external crate; per spec §4.3 (steps 1-4) the scaled round trip of
the zero-padded frame computes, in exact arithmetic, the plain
autocorrelation `r(τ) = Σ_j x[j]·x[j+τ]`. -/
def autocorr (x : List ℚ) (tau : ℕ) : ℚ :=
  ∑ j ∈ Finset.range (x.length - tau), x.getD j 0 * x.getD (j + tau) 0

/-- Difference function `diff[τ] = 2·(r0 − r(τ))` of the frame truncated
to `frame_size` samples, as in `compute_autocorrelation`. -/
def diffFn (frameSize : ℕ) (samples : List ℚ) (tau : ℕ) : ℚ :=
  2 * (autocorr (samples.take frameSize) 0 - autocorr (samples.take frameSize) tau)

/-- Cumulative mean normalised difference (lines 293-303): `cmnd[0] = 1`;
for `τ ≥ 1` the running sum is `Σ_{s=1}^{τ} diff[s]` and
`cmnd[τ] = diff[τ]·τ/rs` when `rs > 1e-10`, else `1`. -/
def cmndFn (frameSize : ℕ) (samples : List ℚ) (tau : ℕ) : ℚ :=
  if tau = 0 then 1
  else
    let rs := ∑ s ∈ Finset.Icc 1 tau, diffFn frameSize samples s
    if 1e-10 < rs then diffFn frameSize samples tau * (tau : ℚ) / rs else 1

/-- The searched lags, ascending over `[sr/500, min(sr/50, tauMax))`
(lines 306-309; the `f32`-to-`usize` casts truncate). -/
def searchTaus (sampleRate : ℚ) (tauMax : ℕ) : List ℕ :=
  List.range' ⌊sampleRate / 500⌋₊ (min ⌊sampleRate / 50⌋₊ tauMax - ⌊sampleRate / 500⌋₊)

/-- Result produced at an accepted lag `tau` (lines 310-330): parabolic
interpolation when `0 < tau < tauMax - 1` and the curvature denominator
is non-negligible, otherwise the unrefined frequency and confidence. -/
def yinStep (sampleRate : ℚ) (tauMax : ℕ) (cm : ℕ → ℚ) (tau : ℕ) : List ℚ :=
  let s0 := cm (tau - 1)
  let s1 := cm tau
  let s2 := cm (tau + 1)
  let denom := s0 - 2 * s1 + s2
  if 0 < tau ∧ tau < tauMax - 1 ∧ 1e-10 < |denom| then
    let adj := min (max ((s0 - s2) / (2 * denom)) (-(1 / 2))) (1 / 2)
    [sampleRate / ((tau : ℚ) + adj), 1 - s1]
  else [sampleRate / (tau : ℚ), 1 - s1]

/-- Ascending threshold search (lines 309-333): return at the first lag
with `cmnd[tau] < threshold`, else the unvoiced pair `[0, 0]`. -/
def yinLoop (sampleRate threshold : ℚ) (tauMax : ℕ) (cm : ℕ → ℚ) : List ℕ → List ℚ
  | [] => [0, 0]
  | t :: ts =>
    if cm t < threshold then yinStep sampleRate tauMax cm t
    else yinLoop sampleRate threshold tauMax cm ts

/-- Model of `PitchDetector::detect`. -/
def detect (sampleRate : ℚ) (frameSize : ℕ) (threshold : ℚ) (samples : List ℚ) : List ℚ :=
  let n := min samples.length frameSize
  yinLoop sampleRate threshold (n / 2) (cmndFn frameSize samples) (searchTaus sampleRate (n / 2))

/-- Model of `PitchDetector::detect_batch`. -/
def detect_batch (sampleRate : ℚ) (frameSize : ℕ) (threshold : ℚ) (hopSize : ℕ)
    (samples : List ℚ) : List ℚ :=
  ((List.range ((samples.length - frameSize) / hopSize + 1)).map
    (fun i => detect sampleRate frameSize threshold
      ((samples.drop (i * hopSize)).take frameSize))).flatten

end Pitch

namespace Formant

/-- Autocorrelation loop of `compute_lpc` (lines 387-392); matches the
Rust loop only while `i ≤ samples.length` (see `compute_lpc`). -/
def autocorr (samples : List ℚ) (i : ℕ) : ℚ :=
  ∑ j ∈ Finset.range (samples.length - i), samples.getD j 0 * samples.getD (j + i) 0

/-- Levinson-Durbin recursion (lines 402-419): state after `i` steps,
namely the coefficient array (as a function `ℕ → ℚ`) and the residual
energy `e`. -/
def ldIter (r : ℕ → ℚ) : ℕ → (ℕ → ℚ) × ℚ
  | 0 => (fun _ => 0, r 0)
  | i + 1 =>
    let p := ldIter r i
    let lam := (r (i + 1) - ∑ j ∈ Finset.range i, p.1 j * r (i - j)) / p.2
    (fun j =>
      if j = i then lam
      else if j < i then p.1 j - lam * p.1 (i - 1 - j)
      else p.1 j,
     p.2 * (1 - lam * lam))

/-- Model of `FormantAnalyzer::compute_lpc`.  `none` models the Rust
panic: when `samples.len() < lpc_order`, the autocorrelation loop bound
`n - i` underflows `usize` and the following slice index is out of
bounds, so the call aborts before anything is returned. -/
def compute_lpc (order : ℕ) (samples : List ℚ) : Option (List ℚ) :=
  if samples.length < order then none
  else if |autocorr samples 0| < 1e-10 then some (List.replicate order 0)
  else some ((List.range order).map (ldIter (autocorr samples) order).1)

/-- Magnitude response at bin `i` of 512 (lines 429-443). -/
noncomputable def respRe (sampleRate : ℚ) (coeffs : List ℚ) (i : ℕ) : ℝ :=
  let freq : ℝ := (i : ℝ) * (sampleRate : ℝ) / 2 / 512
  let omega : ℝ := 2 * Real.pi * freq / (sampleRate : ℝ)
  let realSum : ℝ :=
    1 - ∑ k ∈ Finset.range coeffs.length, (coeffs.getD k 0 : ℝ) * Real.cos (-(((k : ℝ) + 1) * omega))
  let imagSum : ℝ :=
    0 - ∑ k ∈ Finset.range coeffs.length, (coeffs.getD k 0 : ℝ) * Real.sin (-(((k : ℝ) + 1) * omega))
  1 / Real.sqrt (realSum * realSum + imagSum * imagSum + 1e-10)

open Classical in
/-- Peak-picking loop (lines 446-457) over bins `1..511`, with early
exit once 4 formants were found. -/
noncomputable def peaksAux (sampleRate : ℚ) (resp : ℕ → ℝ) : List ℕ → List ℝ → List ℝ
  | [], acc => acc
  | i :: rest, acc =>
    if resp (i - 1) < resp i ∧ resp (i + 1) < resp i ∧
        (resp (i - 1) + resp (i + 1)) / 2 * (3 / 2) < resp i then
      let acc2 := acc ++ [(i : ℝ) * (sampleRate : ℝ) / 2 / 512]
      if 4 ≤ acc2.length then acc2 else peaksAux sampleRate resp rest acc2
    else peaksAux sampleRate resp rest acc

/-- Model of `FormantAnalyzer::analyze`; `none` propagates the
`compute_lpc` abort. -/
noncomputable def analyze (sampleRate : ℚ) (order : ℕ) (samples : List ℚ) :
    Option (List ℝ) :=
  match compute_lpc order samples with
  | none => none
  | some coeffs =>
    some (peaksAux sampleRate (respRe sampleRate coeffs) (List.range' 1 510) [])

end Formant

namespace Resampler

/-- Branchy sinc of `resample` (lines 489-494): Taylor fallback
`1 - x²/6` for `|x| < 0.01`, else `sin(x)/x`. -/
noncomputable def sincApprox (x : ℝ) : ℝ :=
  if |x| < 1e-2 then 1 - x * x / 6 else Real.sin x / x

/-- Branchy Lanczos window of `resample` (lines 496-505): `0` for
`|y| ≥ 1`, Taylor fallback for `|y| < 0.01`, else `sin(πy)/(πy)`. -/
noncomputable def lanczosW (y : ℝ) : ℝ :=
  if 1 ≤ |y| then 0
  else if |y| < 1e-2 then 1 - y * y * Real.pi * Real.pi / 6
  else Real.sin (y * Real.pi) / (y * Real.pi)

/-- The code's fused weight for input index `j` and source position `p`
(lines 486-507): `x = (j - p)·π` and the weight is
`sinc(x) · lanczos(x · (1/8))`. -/
noncomputable def resampleWeight (p : ℝ) (j : ℕ) : ℝ :=
  sincApprox (((j : ℝ) - p) * Real.pi) * lanczosW (((j : ℝ) - p) * Real.pi * (1 / 8))

/-- Model of the free function `resample` (lines 466-518).  The output
length is the truncated product `len·(to/from)`; each output sample is
the weighted average over `j ∈ [src_idx - 8, min (src_idx + 8) len)`
with the fused weight, normalised by `max weight_sum 1e-10`. -/
noncomputable def resample (samples : List ℝ) (fromRate toRate : ℚ) : List ℝ :=
  let newLength := ⌊(samples.length : ℚ) * (toRate / fromRate)⌋₊
  (List.range newLength).map (fun i : ℕ =>
    let q : ℚ := (i : ℚ) / (toRate / fromRate)
    let p : ℝ := (q : ℝ)
    let jList := List.range' (⌊q⌋₊ - 8) (min (⌊q⌋₊ + 8) samples.length - (⌊q⌋₊ - 8))
    let acc := jList.foldl
      (fun ac j => (ac.1 + samples.getD j 0 * resampleWeight p j, ac.2 + resampleWeight p j))
      (0, 0)
    acc.1 / max acc.2 1e-10)

/-- Specification weight from C4's words:
`sinc(π(j - p)) · lanczos((j - p)/W)` with `W = 8`. -/
noncomputable def specWeight (p : ℝ) (j : ℕ) : ℝ :=
  sincApprox (((j : ℝ) - p) * Real.pi) * lanczosW (((j : ℝ) - p) / 8)

open Classical in
/-- Specification output sample from C4's words: sum over input indices
within window radius 8 of `p = i·from/to` of `samples[j]` times the
specification weight, divided by the sum of those weights. -/
noncomputable def specResampleAt (samples : List ℝ) (fromRate toRate : ℚ) (i : ℕ) : ℝ :=
  let p : ℝ := (((i : ℚ) * fromRate / toRate : ℚ) : ℝ)
  let win := (Finset.range samples.length).filter (fun j : ℕ => |(j : ℝ) - p| ≤ 8)
  (∑ j ∈ win, samples.getD j 0 * specWeight p j) / ∑ j ∈ win, specWeight p j

end Resampler

/-! ## Theorems -/

/-- C1: the claimed totality fails in the code.  `FormantAnalyzer::analyze`
with LPC order 2 on a single-sample input aborts (modelled as `none`):
the autocorrelation loop bound `n - i` underflows `usize` for `i > n`
and the subsequent slice index is out of bounds. -/
theorem C1_analyze_aborts_on_short_input :
    Formant.analyze 8000 2 [(1 : ℚ)] = none := by
  simp [Formant.analyze, Formant.compute_lpc]

/-- C3: counterexample to the claimed output length.  Resampling 3
samples from rate 2 to rate 1 yields `⌊3·(1/2)⌋ = 1` output sample, but
the claim's `round(3·1/2)` is 2. -/
theorem C3_resample_length_counterexample :
    (Resampler.resample [0, 0, 0] 2 1).length = 1 ∧
      (round ((3 : ℚ) * 1 / 2)).toNat = 2 := by
  constructor
  · simp only [Resampler.resample, List.length_map, List.length_range]
    rw [Nat.floor_eq_iff (by norm_num)]
    norm_num
  · have h : round ((3 : ℚ) * 1 / 2) = 2 := by rw [round_eq]; norm_num
    rw [h]
    rfl

/-- C3 (amended): for positive rates, the output length of `resample` is
the truncated product `⌊len·toRate/fromRate⌋`, not the rounded one. -/
theorem C3_resample_length (samples : List ℝ) (fromRate toRate : ℚ)
    (hf : 0 < fromRate) (ht : 0 < toRate) :
    (Resampler.resample samples fromRate toRate).length =
      ⌊(samples.length : ℚ) * (toRate / fromRate)⌋₊ := by
  simp only [Resampler.resample, List.length_map, List.length_range]

/-- C3 witness: the amended length formula at a concrete input. -/
theorem C3_resample_length_witness :
    (0 : ℚ) < 2 ∧ (0 : ℚ) < 1 ∧
      (Resampler.resample [0, 0, 0] 2 1).length = ⌊(3 : ℚ) * (1 / 2)⌋₊ :=
  ⟨by norm_num, by norm_num, by
    simpa using C3_resample_length [0, 0, 0] 2 1 (by norm_num) (by norm_num)⟩

/-- Length of the hangover machine's output. -/
theorem Vad.hangover_length (hang : ℕ) :
    ∀ (flags : List Bool) (c : ℕ), (Vad.hangover hang flags c).length = flags.length := by
  intro flags
  induction flags with
  | nil => intro c; rfl
  | cons f rest ih =>
    intro c
    simp only [Vad.hangover]
    split <;> split <;> simp [ih]

/-- Every path of `yinStep` returns a two-element vector. -/
theorem Pitch.yinStep_length (sampleRate : ℚ) (tauMax : ℕ) (cm : ℕ → ℚ) (tau : ℕ) :
    (Pitch.yinStep sampleRate tauMax cm tau).length = 2 := by
  unfold Pitch.yinStep
  dsimp only
  split <;> rfl

/-- Every path of the YIN search returns a two-element vector. -/
theorem Pitch.yinLoop_length (sampleRate threshold : ℚ) (tauMax : ℕ) (cm : ℕ → ℚ) :
    ∀ taus : List ℕ, (Pitch.yinLoop sampleRate threshold tauMax cm taus).length = 2 := by
  intro taus
  induction taus with
  | nil => rfl
  | cons t ts ih =>
    unfold Pitch.yinLoop
    split
    · exact Pitch.yinStep_length sampleRate tauMax cm t
    · exact ih

/-- `PitchDetector::detect` always returns `[frequency, confidence]`. -/
theorem Pitch.detect_length (sampleRate : ℚ) (frameSize : ℕ) (threshold : ℚ)
    (samples : List ℚ) :
    (Pitch.detect sampleRate frameSize threshold samples).length = 2 :=
  Pitch.yinLoop_length _ _ _ _ _

/-- C10: for any hop size `≥ 1`, VAD `detect` emits exactly
`⌊(len - frame)/hop⌋ + 1` flags (`-` saturating) and `detect_batch`
exactly twice that many values; an input shorter than the frame size,
including the empty input, still yields one analysis frame. -/
theorem C10_frame_counts (frameSize hopSize : ℕ) (eTh zTh : ℝ) (hang : ℕ)
    (sampleRate threshold : ℚ) (samples : List ℚ) (hhop : 1 ≤ hopSize) :
    (Vad.detect frameSize hopSize eTh zTh hang samples).length
        = (samples.length - frameSize) / hopSize + 1 ∧
      (Pitch.detect_batch sampleRate frameSize threshold hopSize samples).length
        = 2 * ((samples.length - frameSize) / hopSize + 1) := by
  constructor
  · unfold Vad.detect
    rw [Vad.hangover_length]
    simp [Vad.speechFlags, Vad.numFrames]
  · unfold Pitch.detect_batch
    rw [List.length_flatten, List.map_map]
    have h : (List.length ∘ fun i =>
        Pitch.detect sampleRate frameSize threshold
          ((samples.drop (i * hopSize)).take frameSize)) = Function.const ℕ 2 := by
      funext i
      exact Pitch.detect_length _ _ _ _
    rw [h, List.map_const, List.sum_replicate]
    simp [Nat.mul_comm]

/-- C10 witness: the empty input yields one VAD frame and one pitch
estimate pair. -/
theorem C10_frame_counts_witness :
    1 ≤ 1 ∧ (Vad.detect 3 1 (-40) (1 / 10) 5 []).length = 1 ∧
      (Pitch.detect_batch 1000 3 (1 / 10) 1 []).length = 2 :=
  ⟨le_refl 1,
    by simpa using (C10_frame_counts 3 1 (-40) (1 / 10) 5 1000 (1 / 10) [] (le_refl 1)).1,
    by simpa using (C10_frame_counts 3 1 (-40) (1 / 10) 5 1000 (1 / 10) [] (le_refl 1)).2⟩

/-- C5: for any frame size `N ≥ 2` and input of any length,
`power_spectrum` returns exactly `N/2 + 1` bins, and bin `k` is
`(re² + im²)/N` of bin `k` of the forward transform of the
Hann-windowed (zero-padded or truncated) input. -/
theorem C5_power_spectrum_bins (size : ℕ) (dft : (ℕ → ℂ) → (ℕ → ℂ))
    (samples : List ℝ) (hsize : 2 ≤ size) :
    (Fft.power_spectrum size dft samples).length = size / 2 + 1 ∧
      ∀ k, k < size / 2 + 1 →
        (Fft.power_spectrum size dft samples).getD k 0 =
          ((dft (Fft.windowedBuf size samples) k).re ^ 2 +
            (dft (Fft.windowedBuf size samples) k).im ^ 2) * (1 / (size : ℝ)) := by
  have hlen : size / 2 + 1 ≤ size := by omega
  constructor
  · simp only [Fft.power_spectrum, List.length_map, List.length_take, List.length_range]
    omega
  · intro k hk
    have hk2 : k < size := lt_of_lt_of_le hk hlen
    simp only [Fft.power_spectrum, List.getD_eq_getElem?_getD, List.getElem?_map,
      List.getElem?_take, if_pos hk, List.getElem?_range hk2, Option.map_some',
      Option.getD_some]
    ring

/-- C5 witness: the bin-count at frame size 2 with the identity in place
of the transform. -/
theorem C5_power_spectrum_bins_witness :
    2 ≤ 2 ∧ (Fft.power_spectrum 2 id []).length = 2 / 2 + 1 :=
  ⟨le_refl 2, (C5_power_spectrum_bins 2 id [] (le_refl 2)).1⟩

/-- If no searched lag is below threshold, the YIN loop is unvoiced. -/
theorem Pitch.yinLoop_all_fail (sampleRate threshold : ℚ) (tauMax : ℕ) (cm : ℕ → ℚ) :
    ∀ taus : List ℕ, (∀ t ∈ taus, ¬ cm t < threshold) →
      Pitch.yinLoop sampleRate threshold tauMax cm taus = [0, 0] := by
  intro taus
  induction taus with
  | nil => intro _; rfl
  | cons t ts ih =>
    intro h
    unfold Pitch.yinLoop
    rw [if_neg (h t (by simp))]
    exact ih fun x hx => h x (by simp [hx])

/-- On a strictly increasing lag list, the YIN loop returns the result
derived from the least lag below threshold. -/
theorem Pitch.yinLoop_first_hit (sampleRate threshold : ℚ) (tauMax : ℕ) (cm : ℕ → ℚ) :
    ∀ taus : List ℕ, List.Pairwise (· < ·) taus → ∀ t0 ∈ taus, cm t0 < threshold →
      (∀ t ∈ taus, t < t0 → ¬ cm t < threshold) →
      Pitch.yinLoop sampleRate threshold tauMax cm taus =
        Pitch.yinStep sampleRate tauMax cm t0 := by
  intro taus
  induction taus with
  | nil => intro _ t0 h0; exact absurd h0 (List.not_mem_nil t0)
  | cons t ts ih =>
    intro hpw t0 ht0 hlt hmin
    rcases List.mem_cons.mp ht0 with rfl | hmem
    · unfold Pitch.yinLoop
      rw [if_pos hlt]
    · have htlt : t < t0 := (List.pairwise_cons.mp hpw).1 t0 hmem
      unfold Pitch.yinLoop
      rw [if_neg (hmin t (by simp) htlt)]
      exact ih (List.pairwise_cons.mp hpw).2 t0 hmem hlt fun x hx => hmin x (by simp [hx])

/-- C6: `PitchDetector::detect` searches the lags ascending over
`[sr/500, min(sr/50, tauMax))`; it returns the result derived from the
first (least) lag whose CMND is below the threshold, and the unvoiced
pair `[0, 0]` when no searched lag is below the threshold. -/
theorem C6_first_dip (sampleRate : ℚ) (frameSize : ℕ) (threshold : ℚ) (samples : List ℚ) :
    ((∀ t ∈ Pitch.searchTaus sampleRate (min samples.length frameSize / 2),
        ¬ Pitch.cmndFn frameSize samples t < threshold) →
      Pitch.detect sampleRate frameSize threshold samples = [0, 0]) ∧
      (∀ t0 ∈ Pitch.searchTaus sampleRate (min samples.length frameSize / 2),
        Pitch.cmndFn frameSize samples t0 < threshold →
        (∀ t ∈ Pitch.searchTaus sampleRate (min samples.length frameSize / 2),
          t < t0 → ¬ Pitch.cmndFn frameSize samples t < threshold) →
        Pitch.detect sampleRate frameSize threshold samples =
          Pitch.yinStep sampleRate (min samples.length frameSize / 2)
            (Pitch.cmndFn frameSize samples) t0) := by
  constructor
  · intro h
    exact Pitch.yinLoop_all_fail _ _ _ _ _ h
  · intro t0 ht0 hlt hmin
    exact Pitch.yinLoop_first_hit _ _ _ _ _
      (by simpa [Pitch.searchTaus] using List.pairwise_lt_range' _ _) t0 ht0 hlt hmin

/-- C6 witness: on the empty input the search range is empty and the
result is unvoiced. -/
theorem C6_first_dip_witness :
    Pitch.detect 1000 16 (1 / 10) [] = [0, 0] :=
  (C6_first_dip 1000 16 (1 / 10) []).1 (by simp [Pitch.searchTaus])

/-- Reading an all-zero coefficient array gives zero at every index. -/
theorem Formant.getD_replicate_zero (n k : ℕ) :
    (List.replicate n (0 : ℚ)).getD k 0 = 0 := by
  rw [List.getD_eq_getElem?_getD, List.getElem?_replicate]
  split <;> rfl

/-- With all-zero LPC coefficients the magnitude response is the same
constant at every bin. -/
theorem Formant.respRe_zero (sampleRate : ℚ) (order i : ℕ) :
    Formant.respRe sampleRate (List.replicate order 0) i =
      1 / Real.sqrt (1 + 1e-10) := by
  unfold Formant.respRe
  simp [Formant.getD_replicate_zero]

/-- Peak picking on a constant response finds no peaks. -/
theorem Formant.peaksAux_const (sampleRate : ℚ) (resp : ℕ → ℝ) (c : ℝ)
    (hc : ∀ i, resp i = c) :
    ∀ (l : List ℕ) (acc : List ℝ), Formant.peaksAux sampleRate resp l acc = acc := by
  intro l
  induction l with
  | nil => intro acc; rfl
  | cons i rest ih =>
    intro acc
    unfold Formant.peaksAux
    rw [if_neg (by simp [hc])]
    exact ih acc

/-- C8 (amended): provided the input is at least as long as the LPC
order (so the autocorrelation loop does not abort), a lag-0
autocorrelation below `1e-10` makes `compute_lpc` set every coefficient
to zero without running Levinson-Durbin, and `analyze` then returns an
empty formant list. -/
theorem C8_silence_zero_lpc (order : ℕ) (sampleRate : ℚ) (samples : List ℚ)
    (hlen : order ≤ samples.length) (h0 : |Formant.autocorr samples 0| < 1e-10) :
    Formant.compute_lpc order samples = some (List.replicate order 0) ∧
      Formant.analyze sampleRate order samples = some [] := by
  have hlpc : Formant.compute_lpc order samples = some (List.replicate order 0) := by
    unfold Formant.compute_lpc
    rw [if_neg (by omega), if_pos h0]
  refine ⟨hlpc, ?_⟩
  unfold Formant.analyze
  simp only [hlpc]
  exact congrArg some
    (Formant.peaksAux_const sampleRate _ _ (Formant.respRe_zero sampleRate order) _ _)

/-- C8: counterexample to the unrestricted claim: an all-zero frame
shorter than the LPC order makes `analyze` abort (modelled `none`)
instead of returning an empty formant list. -/
theorem C8_short_silent_frame_aborts :
    Formant.analyze 8000 2 [(0 : ℚ)] = none := by
  simp [Formant.analyze, Formant.compute_lpc]

/-- C8 witness: the amended statement at a concrete silent frame. -/
theorem C8_silence_zero_lpc_witness :
    (1 ≤ ([(0 : ℚ), 0] : List ℚ).length ∧ |Formant.autocorr [(0 : ℚ), 0] 0| < 1e-10) ∧
      Formant.compute_lpc 1 [(0 : ℚ), 0] = some (List.replicate 1 0) ∧
      Formant.analyze 8000 1 [(0 : ℚ), 0] = some [] := by
  have h0 : |Formant.autocorr [(0 : ℚ), 0] 0| < 1e-10 := by
    norm_num [Formant.autocorr, Finset.sum_range_succ]
  have h := C8_silence_zero_lpc 1 8000 [0, 0] (by norm_num) h0
  exact ⟨⟨by norm_num, h0⟩, h.1, h.2⟩

/-- The lag-0 autocorrelation is a sum of squares. -/
theorem Pitch.autocorr_nonneg_zero (x : List ℚ) : 0 ≤ Pitch.autocorr x 0 := by
  unfold Pitch.autocorr
  exact Finset.sum_nonneg fun j _ => mul_self_nonneg _

/-- Cauchy-Schwarz: no autocorrelation lag exceeds the lag-0 value. -/
theorem Pitch.autocorr_le_r0 (x : List ℚ) (tau : ℕ) :
    Pitch.autocorr x tau ≤ Pitch.autocorr x 0 := by
  have hr0 : Pitch.autocorr x 0 = ∑ j ∈ Finset.range x.length, x.getD j 0 ^ 2 := by
    unfold Pitch.autocorr
    simp [sq]
  have h0 : 0 ≤ Pitch.autocorr x 0 := Pitch.autocorr_nonneg_zero x
  have hcs := Finset.sum_mul_sq_le_sq_mul_sq (Finset.range (x.length - tau))
    (fun j => x.getD j 0) (fun j => x.getD (j + tau) 0)
  have hS1 : (0 : ℚ) ≤ ∑ j ∈ Finset.range (x.length - tau), x.getD j 0 ^ 2 :=
    Finset.sum_nonneg fun j _ => sq_nonneg _
  have hS2 : (0 : ℚ) ≤ ∑ j ∈ Finset.range (x.length - tau), x.getD (j + tau) 0 ^ 2 :=
    Finset.sum_nonneg fun j _ => sq_nonneg _
  have h1 : ∑ j ∈ Finset.range (x.length - tau), x.getD j 0 ^ 2 ≤ Pitch.autocorr x 0 := by
    rw [hr0]
    exact Finset.sum_le_sum_of_subset_of_nonneg
      (Finset.range_subset.mpr (Nat.sub_le _ _)) fun i _ _ => sq_nonneg _
  have h2 : ∑ j ∈ Finset.range (x.length - tau), x.getD (j + tau) 0 ^ 2
      ≤ Pitch.autocorr x 0 := by
    rw [hr0]
    have hshift : ∑ k ∈ Finset.Ico tau (tau + (x.length - tau)), x.getD k 0 ^ 2
        = ∑ j ∈ Finset.range (x.length - tau), x.getD (j + tau) 0 ^ 2 := by
      rw [Finset.sum_Ico_eq_sum_range]
      rw [show tau + (x.length - tau) - tau = x.length - tau by omega]
      exact Finset.sum_congr rfl fun j _ => by rw [add_comm]
    rw [← hshift]
    apply Finset.sum_le_sum_of_subset_of_nonneg _ fun i _ _ => sq_nonneg _
    intro k hk
    rw [Finset.mem_Ico] at hk
    rw [Finset.mem_range]
    omega
  have hA : Pitch.autocorr x tau
      = ∑ j ∈ Finset.range (x.length - tau), x.getD j 0 * x.getD (j + tau) 0 := rfl
  rw [hA]
  nlinarith [hcs, h1, h2, h0, hS1, hS2]

/-- The YIN difference function is non-negative in exact arithmetic. -/
theorem Pitch.diffFn_nonneg (frameSize : ℕ) (samples : List ℚ) (tau : ℕ) :
    0 ≤ Pitch.diffFn frameSize samples tau := by
  unfold Pitch.diffFn
  have := Pitch.autocorr_le_r0 (samples.take frameSize) tau
  linarith

/-- Every CMND value is non-negative. -/
theorem Pitch.cmndFn_nonneg (frameSize : ℕ) (samples : List ℚ) (tau : ℕ) :
    0 ≤ Pitch.cmndFn frameSize samples tau := by
  unfold Pitch.cmndFn
  split
  · norm_num
  · dsimp only
    split
    · next h =>
      have hrs : (0 : ℚ) < ∑ s ∈ Finset.Icc 1 tau, Pitch.diffFn frameSize samples s :=
        lt_trans (by norm_num) h
      exact div_nonneg (mul_nonneg (Pitch.diffFn_nonneg _ _ _) (Nat.cast_nonneg tau)) hrs.le
    · norm_num

/-- Both branches of `yinStep` return confidence `1 - cmnd[tau]`. -/
theorem Pitch.yinStep_getD_one (sampleRate : ℚ) (tauMax : ℕ) (cm : ℕ → ℚ) (tau : ℕ) :
    (Pitch.yinStep sampleRate tauMax cm tau).getD 1 0 = 1 - cm tau := by
  unfold Pitch.yinStep
  dsimp only
  split <;> rfl

/-- Confidence bound for the YIN loop over any non-negative CMND
function, provided the threshold is at most 1. -/
theorem Pitch.yinLoop_conf_range (sampleRate threshold : ℚ) (tauMax : ℕ) (cm : ℕ → ℚ)
    (hcm : ∀ t, 0 ≤ cm t) (hth : threshold ≤ 1) :
    ∀ taus : List ℕ,
      0 ≤ (Pitch.yinLoop sampleRate threshold tauMax cm taus).getD 1 0 ∧
        (Pitch.yinLoop sampleRate threshold tauMax cm taus).getD 1 0 ≤ 1 := by
  intro taus
  induction taus with
  | nil =>
    constructor <;> simp [Pitch.yinLoop, List.getD_cons_succ, List.getD_cons_zero]
  | cons t ts ih =>
    unfold Pitch.yinLoop
    split
    · next h =>
      rw [Pitch.yinStep_getD_one]
      constructor
      · linarith
      · linarith [hcm t]
    · exact ih

/-- C9 (amended): whenever the voicing threshold is at most 1 (its
default is 0.1), the confidence returned by `detect` lies in `[0, 1]`;
a threshold above 1 set through `set_threshold` can drive it negative. -/
theorem C9_confidence_range (sampleRate : ℚ) (frameSize : ℕ) (threshold : ℚ)
    (samples : List ℚ) (hth : threshold ≤ 1) :
    0 ≤ (Pitch.detect sampleRate frameSize threshold samples).getD 1 0 ∧
      (Pitch.detect sampleRate frameSize threshold samples).getD 1 0 ≤ 1 := by
  unfold Pitch.detect
  exact Pitch.yinLoop_conf_range _ _ _ _
    (fun t => Pitch.cmndFn_nonneg frameSize samples t) hth _

/-- C9 witness: the bound at the default threshold on the empty input. -/
theorem C9_confidence_range_witness :
    (1 : ℚ) / 10 ≤ 1 ∧ 0 ≤ (Pitch.detect 1000 16 (1 / 10) []).getD 1 0 ∧
      (Pitch.detect 1000 16 (1 / 10) []).getD 1 0 ≤ 1 :=
  ⟨by norm_num, (C9_confidence_range 1000 16 (1 / 10) [] (by norm_num)).1,
    (C9_confidence_range 1000 16 (1 / 10) [] (by norm_num)).2⟩

/-- An all-ones frame yields autocorrelation `n - tau`. -/
theorem Pitch.autocorr_replicate_one (n tau : ℕ) (htau : tau ≤ n) :
    Pitch.autocorr (List.replicate n (1 : ℚ)) tau = ((n - tau : ℕ) : ℚ) := by
  unfold Pitch.autocorr
  rw [List.length_replicate]
  have hterm : ∀ j ∈ Finset.range (n - tau),
      (List.replicate n (1 : ℚ)).getD j 0 * (List.replicate n (1 : ℚ)).getD (j + tau) 0
        = 1 := by
    intro j hj
    rw [Finset.mem_range] at hj
    rw [List.getD_eq_getElem?_getD, List.getElem?_replicate, if_pos (by omega),
        List.getD_eq_getElem?_getD, List.getElem?_replicate, if_pos (by omega)]
    norm_num
  rw [Finset.sum_congr rfl hterm, Finset.sum_const, Finset.card_range]
  simp

/-- An all-ones frame yields the difference function `2·tau`. -/
theorem Pitch.diffFn_replicate_one (n tau : ℕ) (h : tau ≤ n) :
    Pitch.diffFn n (List.replicate n (1 : ℚ)) tau = 2 * tau := by
  unfold Pitch.diffFn
  rw [show List.take n (List.replicate n (1 : ℚ)) = List.replicate n 1 by
        simp [List.take_replicate]]
  rw [Pitch.autocorr_replicate_one n 0 (by omega), Pitch.autocorr_replicate_one n tau h]
  rw [Nat.sub_zero, Nat.cast_sub h]
  ring

/-- C9: counterexample to the unrestricted claim: with threshold `1.9`
(settable via `set_threshold`) a 16-sample all-ones frame at 1000 Hz
yields confidence `1 - cmnd[2] = -1/3 < 0`. -/
theorem C9_confidence_counterexample :
    (Pitch.detect 1000 16 (19 / 10) (List.replicate 16 1)).getD 1 0 < 0 := by
  have hc2 : Pitch.cmndFn 16 (List.replicate 16 1) 2 = 4 / 3 := by
    have hIcc1 : ∑ s ∈ Finset.Icc 1 1, Pitch.diffFn 16 (List.replicate 16 1) s = 2 := by
      rw [Finset.Icc_self, Finset.sum_singleton,
        Pitch.diffFn_replicate_one 16 1 (by norm_num)]
      norm_num
    have hIcc2 : ∑ s ∈ Finset.Icc 1 2, Pitch.diffFn 16 (List.replicate 16 1) s = 6 := by
      rw [show (2 : ℕ) = 1 + 1 from rfl, Finset.sum_Icc_succ_top (by norm_num), hIcc1,
          Pitch.diffFn_replicate_one 16 2 (by norm_num)]
      norm_num
    unfold Pitch.cmndFn
    rw [if_neg (by norm_num), hIcc2, if_pos (by norm_num),
        Pitch.diffFn_replicate_one 16 2 (by norm_num)]
    norm_num
  have hminP : ⌊(1000 : ℚ) / 500⌋₊ = 2 := by rw [Nat.floor_eq_iff] <;> norm_num
  have hmaxP : ⌊(1000 : ℚ) / 50⌋₊ = 20 := by rw [Nat.floor_eq_iff] <;> norm_num
  have htaus : Pitch.searchTaus 1000 8 = [2, 3, 4, 5, 6, 7] := by
    unfold Pitch.searchTaus
    rw [hminP, hmaxP]
    decide
  have hdet : Pitch.detect 1000 16 (19 / 10) (List.replicate 16 1)
      = Pitch.yinLoop 1000 (19 / 10) 8 (Pitch.cmndFn 16 (List.replicate 16 1))
          [2, 3, 4, 5, 6, 7] := by
    unfold Pitch.detect
    dsimp only
    norm_num [htaus]
  rw [hdet]
  unfold Pitch.yinLoop
  rw [if_pos (by rw [hc2]; norm_num), Pitch.yinStep_getD_one, hc2]
  norm_num

/-- One speech flag per analysis frame. -/
theorem Vad.speechFlags_length (frameSize hopSize : ℕ) (eTh zTh : ℝ) (samples : List ℚ) :
    (Vad.speechFlags frameSize hopSize eTh zTh samples).length
      = Vad.numFrames frameSize hopSize samples := by
  simp [Vad.speechFlags]

open Classical in
/-- The speech flag of an in-range frame is its speech test. -/
theorem Vad.speechFlags_getD (frameSize hopSize : ℕ) (eTh zTh : ℝ) (samples : List ℚ)
    (i : ℕ) (d : Bool) (h : i < Vad.numFrames frameSize hopSize samples) :
    (Vad.speechFlags frameSize hopSize eTh zTh samples).getD i d
      = if Vad.IsSpeech eTh zTh (Vad.frameAt frameSize hopSize samples i) then true
        else false := by
  unfold Vad.speechFlags
  rw [List.getD_eq_getElem?_getD, List.getElem?_map, List.getElem?_range h,
      Option.map_some', Option.getD_some]

/-- The hangover machine distributes over concatenation, threading the
counter through `hangState`. -/
theorem Vad.hangover_append (hang : ℕ) :
    ∀ (xs ys : List Bool) (c : ℕ),
      Vad.hangover hang (xs ++ ys) c
        = Vad.hangover hang xs c ++ Vad.hangover hang ys (Vad.hangState hang xs c) := by
  intro xs
  induction xs with
  | nil => intro ys c; rfl
  | cons f rest ih =>
    intro ys c
    simp only [List.cons_append, Vad.hangover, Vad.hangState]
    split <;> split <;> simp [ih]

/-- While the incoming counter dominates the position, the output is
forced to 1 regardless of the flags. -/
theorem Vad.hangover_forced (hang : ℕ) (hh : 1 ≤ hang) :
    ∀ (flags : List Bool) (c j : ℕ), c ≤ hang → j < c → j < flags.length →
      (Vad.hangover hang flags c).getD j 0 = 1 := by
  intro flags
  induction flags with
  | nil => intro c j _ _ h; simp at h
  | cons f rest ih =>
    intro c j hch hjc hjl
    simp only [Vad.hangover]
    rw [if_pos (show 0 < (if f = true then hang else c) by split <;> omega)]
    cases j with
    | zero => rfl
    | succ j' =>
      rw [List.getD_cons_succ]
      exact ih _ j' (by split <;> omega) (by split <;> omega) (by simpa using hjl)

/-- After exactly `c` failing frames the counter is spent: a further
failing frame is reported 0. -/
theorem Vad.hangover_exhaust (hang : ℕ) :
    ∀ (c : ℕ) (flags : List Bool), c < flags.length →
      (∀ m, m ≤ c → flags.getD m true = false) →
      (Vad.hangover hang flags c).getD c 0 = 0 := by
  intro c
  induction c with
  | zero =>
    intro flags hlen hm
    match flags with
    | [] => simp at hlen
    | f :: rest =>
      have hf : f = false := by simpa using hm 0 (le_refl 0)
      subst hf
      have hred : Vad.hangover hang (false :: rest) 0 = 0 :: Vad.hangover hang rest 0 := by
        simp [Vad.hangover]
      rw [hred]
      rfl
  | succ c' ih =>
    intro flags hlen hm
    match flags with
    | [] => simp at hlen
    | f :: rest =>
      have hf : f = false := by simpa using hm 0 (by omega)
      subst hf
      have hred : Vad.hangover hang (false :: rest) (c' + 1)
          = 1 :: Vad.hangover hang rest c' := by
        simp [Vad.hangover]
      rw [hred, List.getD_cons_succ]
      exact ih rest (by simpa using hlen) fun m hm' => by
        simpa using hm (m + 1) (by omega)

/-- C2 (amended): after a speech frame `i`, the code forces only frames
`i+1 .. i+hang-1` to 1; frame `i+hang` is reported 0 when it
individually fails the test (the claim's forced range `i+1 .. i+h`, with
frame `i+h+1` as the first 0, is off by one). -/
theorem C2_hangover (frameSize hopSize : ℕ) (eTh zTh : ℝ) (hang : ℕ)
    (samples : List ℚ) (i : ℕ) (hh : 1 ≤ hang)
    (hin : i + hang < Vad.numFrames frameSize hopSize samples)
    (hsp : Vad.IsSpeech eTh zTh (Vad.frameAt frameSize hopSize samples i))
    (hfail : ∀ k, 1 ≤ k → k ≤ hang →
      ¬ Vad.IsSpeech eTh zTh (Vad.frameAt frameSize hopSize samples (i + k))) :
    (Vad.detect frameSize hopSize eTh zTh hang samples).getD i 0 = 1 ∧
      (∀ k, 1 ≤ k → k ≤ hang - 1 →
        (Vad.detect frameSize hopSize eTh zTh hang samples).getD (i + k) 0 = 1) ∧
      (Vad.detect frameSize hopSize eTh zTh hang samples).getD (i + hang) 0 = 0 := by
  have h0hang : 0 < hang := hh
  set F := Vad.speechFlags frameSize hopSize eTh zTh samples with hF
  have hFlen : F.length = Vad.numFrames frameSize hopSize samples :=
    Vad.speechFlags_length frameSize hopSize eTh zTh samples
  have hi : i < F.length := by omega
  have hFi : F[i] = true := by
    have h := Vad.speechFlags_getD frameSize hopSize eTh zTh samples i false (by omega)
    rw [← hF, List.getD_eq_getElem F false hi] at h
    rw [h, if_pos hsp]
  have hsplit : F = F.take i ++ (true :: F.drop (i + 1)) := by
    conv_lhs => rw [← List.take_append_drop i F]
    rw [List.drop_eq_getElem_cons hi, hFi]
  have hcons : ∀ (zs : List Bool) (c : ℕ),
      Vad.hangover hang (true :: zs) c = 1 :: Vad.hangover hang zs (hang - 1) := by
    intro zs c
    simp [Vad.hangover, h0hang]
  have hdet : Vad.detect frameSize hopSize eTh zTh hang samples
      = Vad.hangover hang (F.take i) 0
        ++ (1 :: Vad.hangover hang (F.drop (i + 1)) (hang - 1)) := by
    show Vad.hangover hang F 0 = _
    conv_lhs => rw [hsplit]
    rw [Vad.hangover_append, hcons]
  have hlen1 : (Vad.hangover hang (F.take i) 0).length = i := by
    rw [Vad.hangover_length, List.length_take]
    omega
  have hdroplen : (F.drop (i + 1)).length = F.length - (i + 1) := List.length_drop _ _
  have hzs : ∀ m, m ≤ hang - 1 → (F.drop (i + 1)).getD m true = false := by
    intro m hm
    have hidx : i + 1 + m < Vad.numFrames frameSize hopSize samples := by omega
    have h1 : (F.drop (i + 1)).getD m true = F.getD (i + 1 + m) true := by
      rw [List.getD_eq_getElem?_getD, List.getElem?_drop, ← List.getD_eq_getElem?_getD]
    rw [h1, hF, Vad.speechFlags_getD frameSize hopSize eTh zTh samples _ true hidx, if_neg]
    rw [show i + 1 + m = i + (m + 1) by omega]
    exact hfail (m + 1) (by omega) (by omega)
  refine ⟨?_, ?_, ?_⟩
  · rw [hdet, List.getD_append_right _ _ _ i (by omega), hlen1, Nat.sub_self,
      List.getD_cons_zero]
  · intro k hk1 hk2
    rw [hdet, List.getD_append_right _ _ _ (i + k) (by omega), hlen1,
      show i + k - i = k by omega, show k = (k - 1) + 1 by omega, List.getD_cons_succ]
    exact Vad.hangover_forced hang hh (F.drop (i + 1)) (hang - 1) (k - 1)
      (by omega) (by omega) (by omega)
  · obtain ⟨m, rfl⟩ : ∃ m, hang = m + 1 := ⟨hang - 1, by omega⟩
    rw [hdet, List.getD_append_right _ _ _ (i + (m + 1)) (by omega), hlen1,
      show i + (m + 1) - i = m + 1 by omega, List.getD_cons_succ,
      show m + 1 - 1 = m by omega]
    exact Vad.hangover_exhaust (m + 1) m (F.drop (i + 1)) (by omega)
      fun m' hm' => hzs m' (by omega)

/-- A constant positive frame has no sign changes. -/
theorem Vad.signChanges_replicate_one (n : ℕ) :
    Vad.signChanges (List.replicate n (1 : ℚ)) = 0 := by
  induction n with
  | zero => rfl
  | succ m ih =>
    cases m with
    | zero => rfl
    | succ m' =>
      show Vad.signChanges ((1 : ℚ) :: 1 :: List.replicate m' 1) = 0
      rw [show Vad.signChanges ((1 : ℚ) :: 1 :: List.replicate m' 1)
          = (if decide ((0 : ℚ) ≤ 1) = decide ((0 : ℚ) ≤ 1) then 0 else 1)
            + Vad.signChanges ((1 : ℚ) :: List.replicate m' 1) from rfl]
      rw [if_pos rfl, Nat.zero_add]
      exact ih

/-- An all-ones frame passes the default speech test. -/
theorem Vad.isSpeech_replicate_one (n : ℕ) (hn : 1 ≤ n) :
    Vad.IsSpeech (-40) (1 / 10) (List.replicate n (1 : ℚ)) := by
  constructor
  · unfold Vad.energyDb
    have he : (((List.replicate n (1 : ℚ)).map (fun s => s * s)).sum
        / ((List.replicate n (1 : ℚ)).length : ℚ) : ℚ) = 1 := by
      rw [List.map_replicate]
      simp only [List.sum_replicate, List.length_replicate, nsmul_eq_mul, mul_one]
      exact div_self (Nat.cast_ne_zero.mpr (by omega))
    rw [he]
    have hlog : 0 < Real.logb 10 (((1 : ℚ) : ℝ) + 1e-10) :=
      Real.logb_pos (by norm_num) (by push_cast; norm_num)
    nlinarith [hlog]
  · unfold Vad.zcr
    rw [Vad.signChanges_replicate_one]
    push_cast
    norm_num

/-- The energy statistic of the single-sample silent frame. -/
theorem Vad.energyDb_single_zero : Vad.energyDb [(0 : ℚ)] = -100 := by
  unfold Vad.energyDb
  have h1 : ((([(0 : ℚ)].map (fun s => s * s)).sum / (([(0 : ℚ)].length : ℚ)) : ℚ)) = 0 := by
    norm_num
  rw [h1]
  have h2 : (((0 : ℚ) : ℝ)) + 1e-10 = ((10 : ℝ) ^ (10 : ℕ))⁻¹ := by norm_num
  rw [h2, Real.logb_inv, Real.logb_pow, Real.logb_self_eq_one (by norm_num)]
  norm_num

/-- The single-sample silent frame fails the default speech test. -/
theorem Vad.not_isSpeech_zero : ¬ Vad.IsSpeech (-40) (1 / 10) [(0 : ℚ)] := by
  rintro ⟨he, -⟩
  rw [Vad.energyDb_single_zero] at he
  norm_num at he

/-- Speech flags of the one-pulse input used below. -/
theorem Vad.speechFlags_pulse_eval :
    Vad.speechFlags 1 1 (-40) (1 / 10) [1, 0, 0, 0, 0, 0, 0, 0]
      = [true, false, false, false, false, false, false, false] := by
  have hs0 : Vad.IsSpeech (-40) (1 / 10)
      (Vad.frameAt 1 1 [1, 0, 0, 0, 0, 0, 0, 0] 0) :=
    Vad.isSpeech_replicate_one 1 (le_refl 1)
  unfold Vad.speechFlags
  rw [show Vad.numFrames 1 1 [(1 : ℚ), 0, 0, 0, 0, 0, 0, 0] = 8 from rfl,
    show List.range 8 = [0, 1, 2, 3, 4, 5, 6, 7] from rfl]
  simp only [List.map_cons, List.map_nil]
  rw [if_pos hs0,
    if_neg (show ¬ Vad.IsSpeech (-40) (1 / 10)
      (Vad.frameAt 1 1 [1, 0, 0, 0, 0, 0, 0, 0] 1) from Vad.not_isSpeech_zero),
    if_neg (show ¬ Vad.IsSpeech (-40) (1 / 10)
      (Vad.frameAt 1 1 [1, 0, 0, 0, 0, 0, 0, 0] 2) from Vad.not_isSpeech_zero),
    if_neg (show ¬ Vad.IsSpeech (-40) (1 / 10)
      (Vad.frameAt 1 1 [1, 0, 0, 0, 0, 0, 0, 0] 3) from Vad.not_isSpeech_zero),
    if_neg (show ¬ Vad.IsSpeech (-40) (1 / 10)
      (Vad.frameAt 1 1 [1, 0, 0, 0, 0, 0, 0, 0] 4) from Vad.not_isSpeech_zero),
    if_neg (show ¬ Vad.IsSpeech (-40) (1 / 10)
      (Vad.frameAt 1 1 [1, 0, 0, 0, 0, 0, 0, 0] 5) from Vad.not_isSpeech_zero),
    if_neg (show ¬ Vad.IsSpeech (-40) (1 / 10)
      (Vad.frameAt 1 1 [1, 0, 0, 0, 0, 0, 0, 0] 6) from Vad.not_isSpeech_zero),
    if_neg (show ¬ Vad.IsSpeech (-40) (1 / 10)
      (Vad.frameAt 1 1 [1, 0, 0, 0, 0, 0, 0, 0] 7) from Vad.not_isSpeech_zero)]

/-- C2: counterexample to the claimed hangover span: with the default
configuration (hangover 5, thresholds -40 dB and 0.1), frame 0 is speech
and frames 1..5 each fail the test individually, yet `detect` reports
frame 5 as 0 where the claim requires frames 1..5 all to be 1. -/
theorem C2_hangover_counterexample :
    Vad.IsSpeech (-40) (1 / 10) (Vad.frameAt 1 1 [1, 0, 0, 0, 0, 0, 0, 0] 0) ∧
      (¬ Vad.IsSpeech (-40) (1 / 10) (Vad.frameAt 1 1 [1, 0, 0, 0, 0, 0, 0, 0] 1) ∧
        ¬ Vad.IsSpeech (-40) (1 / 10) (Vad.frameAt 1 1 [1, 0, 0, 0, 0, 0, 0, 0] 2) ∧
        ¬ Vad.IsSpeech (-40) (1 / 10) (Vad.frameAt 1 1 [1, 0, 0, 0, 0, 0, 0, 0] 3) ∧
        ¬ Vad.IsSpeech (-40) (1 / 10) (Vad.frameAt 1 1 [1, 0, 0, 0, 0, 0, 0, 0] 4) ∧
        ¬ Vad.IsSpeech (-40) (1 / 10) (Vad.frameAt 1 1 [1, 0, 0, 0, 0, 0, 0, 0] 5)) ∧
      (Vad.detect 1 1 (-40) (1 / 10) 5 [1, 0, 0, 0, 0, 0, 0, 0]).getD 5 0 = 0 := by
  refine ⟨Vad.isSpeech_replicate_one 1 (le_refl 1),
    ⟨Vad.not_isSpeech_zero, Vad.not_isSpeech_zero, Vad.not_isSpeech_zero,
      Vad.not_isSpeech_zero, Vad.not_isSpeech_zero⟩, ?_⟩
  have hdet : Vad.detect 1 1 (-40) (1 / 10) 5 [1, 0, 0, 0, 0, 0, 0, 0]
      = [1, 1, 1, 1, 1, 0, 0, 0] := by
    unfold Vad.detect
    rw [Vad.speechFlags_pulse_eval]
    rfl
  rw [hdet]
  rfl

/-- C2 witness: the amended statement at the one-pulse input. -/
theorem C2_hangover_witness :
    (Vad.detect 1 1 (-40) (1 / 10) 5 [1, 0, 0, 0, 0, 0, 0, 0]).getD 5 0 = 0 := by
  refine (C2_hangover 1 1 (-40) (1 / 10) 5 [1, 0, 0, 0, 0, 0, 0, 0] 0 (by norm_num)
    (by norm_num [Vad.numFrames]) (Vad.isSpeech_replicate_one 1 (le_refl 1))
    (fun k hk1 hk5 => by interval_cases k <;> exact Vad.not_isSpeech_zero)).2.2

/-- Membership in `runsAux` is exactly the maximal-run predicate, for
any suffix-walk state whose invariant holds. -/
theorem Vad.runsAux_mem (flags : List ℕ) :
    ∀ (zs : List ℕ) (i : ℕ) (st : Option ℕ),
      zs = flags.drop i → i ≤ flags.length →
      (st = none → i = 0 ∨ flags.getD (i - 1) 0 ≠ 1) →
      (∀ s, st = some s → s < i ∧ (∀ k, s ≤ k → k < i → flags.getD k 0 = 1) ∧
        (s = 0 ∨ flags.getD (s - 1) 0 ≠ 1)) →
      ∀ a b, ((a, b) ∈ Vad.runsAux zs i st
        ↔ Vad.IsMaxRun flags a b ∧ st.elim i (fun s => s) ≤ a) := by
  intro zs
  induction zs with
  | nil =>
    intro i st hdrop hilen hnone hsome a b
    have hieq : i = flags.length := by
      have hlen := congrArg List.length hdrop
      rw [List.length_drop] at hlen
      simp only [List.length_nil] at hlen
      omega
    cases st with
    | none =>
      constructor
      · intro h
        exact absurd h (List.not_mem_nil _)
      · rintro ⟨⟨h1, h2, -⟩, h3⟩
        simp only [Option.elim_none, Option.elim_some] at h3
        omega
    | some s =>
      obtain ⟨hsi, hall, hleft⟩ := hsome s rfl
      constructor
      · intro h
        have heq : a = s ∧ b = i := by
          rw [show Vad.runsAux [] i (some s) = [(s, i)] from rfl] at h
          simpa [Prod.ext_iff] using h
        obtain ⟨rfl, rfl⟩ := heq
        exact ⟨⟨by omega, by omega, fun k hk1 hk2 => hall k hk1 (by omega), hleft,
          Or.inl hieq⟩, le_refl a⟩
      · rintro ⟨⟨hab, hble, hrun, hlft, hright⟩, hsa⟩
        simp only [Option.elim_none, Option.elim_some] at hsa
        have ha : a = s := by
          by_contra hne
          have has : s < a := by omega
          have h1 : flags.getD (a - 1) 0 = 1 := hall (a - 1) (by omega) (by omega)
          rcases hlft with h | h
          · omega
          · exact h h1
        have hb : b = i := by
          by_contra hne
          have hbi : b < i := by omega
          have h1 : flags.getD b 0 = 1 := hall b (by omega) (by omega)
          rcases hright with h | h
          · omega
          · exact h h1
        subst ha
        subst hb
        rw [show Vad.runsAux [] b (some a) = [(a, b)] from rfl]
        exact List.mem_singleton.mpr rfl
  | cons v rest ih =>
    intro i st hdrop hilen hnone hsome a b
    have hlen := congrArg List.length hdrop
    rw [List.length_cons, List.length_drop] at hlen
    have hilt : i < flags.length := by omega
    have hfv : flags.getD i 0 = v := by
      have h1 : (flags.drop i)[0]? = some v := by rw [← hdrop]; simp
      rw [List.getElem?_drop] at h1
      rw [List.getD_eq_getElem?_getD]
      simp only [Nat.add_zero] at h1
      rw [h1]
      rfl
    have hrest : rest = flags.drop (i + 1) := by
      have h1 := congrArg List.tail hdrop
      simp only [List.tail_cons, List.tail_drop] at h1
      exact h1
    cases st with
    | none =>
      by_cases hv1 : v = 1
      · subst hv1
        rw [show Vad.runsAux (1 :: rest) i none = Vad.runsAux rest (i + 1) (some i) from by
          simp [Vad.runsAux]]
        have hIH := ih (i + 1) (some i) hrest (by omega) (fun h => nomatch h)
          (by
            rintro s' hs'
            cases hs'
            exact ⟨by omega, fun k hk1 hk2 => by rw [show k = i by omega]; exact hfv,
              hnone rfl⟩) a b
        rw [hIH]
        simp only [Option.elim_none, Option.elim_some]
      · rw [show Vad.runsAux (v :: rest) i none = Vad.runsAux rest (i + 1) none from by
          simp [Vad.runsAux, hv1]]
        have hIH := ih (i + 1) none hrest (by omega)
          (fun _ => Or.inr (by simp only [Nat.add_sub_cancel]; rw [hfv]; exact hv1))
          (fun s' hs' => nomatch hs') a b
        rw [hIH]
        simp only [Option.elim_none, Option.elim_some]
        constructor
        · rintro ⟨hm, hia⟩
          exact ⟨hm, by omega⟩
        · rintro ⟨hm, hia⟩
          refine ⟨hm, ?_⟩
          rcases Nat.eq_or_lt_of_le hia with heq | hlt
          · exfalso
            obtain ⟨hab, hble, hrun, -, -⟩ := hm
            have h1 := hrun a (le_refl a) hab
            rw [← heq, hfv] at h1
            exact hv1 h1
          · omega
    | some s =>
      obtain ⟨hsi, hall, hleft⟩ := hsome s rfl
      by_cases hv1 : v = 1
      · subst hv1
        rw [show Vad.runsAux (1 :: rest) i (some s) = Vad.runsAux rest (i + 1) (some s) from by
          simp [Vad.runsAux]]
        have hIH := ih (i + 1) (some s) hrest (by omega) (fun h => nomatch h)
          (by
            rintro s' hs'
            cases hs'
            refine ⟨by omega, fun k hk1 hk2 => ?_, hleft⟩
            rcases Nat.lt_or_ge k i with hki | hki
            · exact hall k hk1 hki
            · rw [show k = i by omega]
              exact hfv) a b
        rw [hIH]
        simp only [Option.elim_none, Option.elim_some]
      · rw [show Vad.runsAux (v :: rest) i (some s)
            = (s, i) :: Vad.runsAux rest (i + 1) none from by simp [Vad.runsAux, hv1]]
        have hIH := ih (i + 1) none hrest (by omega)
          (fun _ => Or.inr (by simp only [Nat.add_sub_cancel]; rw [hfv]; exact hv1))
          (fun s' hs' => nomatch hs') a b
        constructor
        · intro h
          rcases List.mem_cons.mp h with heq | hmem
          · obtain ⟨rfl, rfl⟩ : a = s ∧ b = i := by simpa [Prod.ext_iff] using heq
            exact ⟨⟨hsi, by omega, fun k hk1 hk2 => hall k hk1 hk2, hleft,
              Or.inr (by rw [hfv]; exact hv1)⟩, le_refl a⟩
          · obtain ⟨hm, hia⟩ := hIH.mp hmem
            simp only [Option.elim_none, Option.elim_some] at hia ⊢
            exact ⟨hm, by omega⟩
        · rintro ⟨hm, hsa⟩
          simp only [Option.elim_none, Option.elim_some] at hsa
          by_cases hai : a ≤ i
          · obtain ⟨hab, hble, hrun, hlft, hright⟩ := hm
            have ha : a = s := by
              by_contra hne
              have has : s < a := by omega
              have h1 : flags.getD (a - 1) 0 = 1 := hall (a - 1) (by omega) (by omega)
              rcases hlft with h | h
              · omega
              · exact h h1
            have hb : b = i := by
              rcases lt_trichotomy b i with hblt | heq | hgt
              · exfalso
                have h1 : flags.getD b 0 = 1 := hall b (by omega) hblt
                rcases hright with h | h
                · omega
                · exact h h1
              · exact heq
              · exfalso
                have h1 : flags.getD i 0 = 1 := hrun i (by omega) hgt
                rw [hfv] at h1
                exact hv1 h1
            subst ha
            subst hb
            exact List.mem_cons_self _ _
          · apply List.mem_cons_of_mem
            rw [hIH]
            simp only [Option.elim_none, Option.elim_some]
            exact ⟨hm, by omega⟩

/-- Every run emitted by the suffix walk starts at or after the walk's
lower bound. -/
theorem Vad.runsAux_start_bound :
    ∀ (zs : List ℕ) (i : ℕ) (st : Option ℕ), (∀ s, st = some s → s ≤ i) →
      ∀ p ∈ Vad.runsAux zs i st, st.elim i (fun s => s) ≤ p.1 := by
  intro zs
  induction zs with
  | nil =>
    intro i st hst p hp
    cases st with
    | none => exact absurd hp (List.not_mem_nil _)
    | some s =>
      rw [show Vad.runsAux [] i (some s) = [(s, i)] from rfl] at hp
      obtain rfl := List.mem_singleton.mp hp
      simp only [Option.elim_some]
      exact le_refl s
  | cons v rest ih =>
    intro i st hst p hp
    cases st with
    | none =>
      simp only [Option.elim_none]
      by_cases hv1 : v = 1
      · subst hv1
        rw [show Vad.runsAux (1 :: rest) i none = Vad.runsAux rest (i + 1) (some i) from by
          simp [Vad.runsAux]] at hp
        have h := ih (i + 1) (some i) (by rintro s hs; cases hs; omega) p hp
        simp only [Option.elim_some] at h
        exact h
      · rw [show Vad.runsAux (v :: rest) i none = Vad.runsAux rest (i + 1) none from by
          simp [Vad.runsAux, hv1]] at hp
        have h := ih (i + 1) none (fun s hs => nomatch hs) p hp
        simp only [Option.elim_none] at h
        omega
    | some s =>
      simp only [Option.elim_some]
      by_cases hv1 : v = 1
      · subst hv1
        rw [show Vad.runsAux (1 :: rest) i (some s) = Vad.runsAux rest (i + 1) (some s) from by
          simp [Vad.runsAux]] at hp
        have h := ih (i + 1) (some s) (by rintro s' hs'; cases hs'; have := hst _ rfl; omega)
          p hp
        simpa using h
      · rw [show Vad.runsAux (v :: rest) i (some s)
            = (s, i) :: Vad.runsAux rest (i + 1) none from by simp [Vad.runsAux, hv1]] at hp
        rcases List.mem_cons.mp hp with rfl | hmem
        · simp
        · have h := ih (i + 1) none (fun s' hs' => nomatch hs') p hmem
          simp only [Option.elim_none] at h
          have hsi := hst s rfl
          omega

/-- The emitted runs are ascending and non-overlapping. -/
theorem Vad.runsAux_pairwise :
    ∀ (zs : List ℕ) (i : ℕ) (st : Option ℕ), (∀ s, st = some s → s ≤ i) →
      List.Pairwise (fun p q => p.2 ≤ q.1) (Vad.runsAux zs i st) := by
  intro zs
  induction zs with
  | nil =>
    intro i st hst
    cases st with
    | none => exact List.Pairwise.nil
    | some s =>
      rw [show Vad.runsAux [] i (some s) = [(s, i)] from rfl]
      exact List.pairwise_singleton _ _
  | cons v rest ih =>
    intro i st hst
    cases st with
    | none =>
      by_cases hv1 : v = 1
      · subst hv1
        rw [show Vad.runsAux (1 :: rest) i none = Vad.runsAux rest (i + 1) (some i) from by
          simp [Vad.runsAux]]
        exact ih (i + 1) (some i) (by rintro s hs; cases hs; omega)
      · rw [show Vad.runsAux (v :: rest) i none = Vad.runsAux rest (i + 1) none from by
          simp [Vad.runsAux, hv1]]
        exact ih (i + 1) none (fun s hs => nomatch hs)
    | some s =>
      by_cases hv1 : v = 1
      · subst hv1
        rw [show Vad.runsAux (1 :: rest) i (some s) = Vad.runsAux rest (i + 1) (some s) from by
          simp [Vad.runsAux]]
        exact ih (i + 1) (some s) (by rintro s' hs'; cases hs'; have := hst _ rfl; omega)
      · rw [show Vad.runsAux (v :: rest) i (some s)
            = (s, i) :: Vad.runsAux rest (i + 1) none from by simp [Vad.runsAux, hv1]]
        refine List.Pairwise.cons ?_ (ih (i + 1) none (fun s' hs' => nomatch hs'))
        intro q hq
        have h := Vad.runsAux_start_bound rest (i + 1) none (fun s' hs' => nomatch hs') q hq
        simp only [Option.elim_none] at h
        show i ≤ q.1
        omega

/-- The hangover machine only ever emits 0 or 1. -/
theorem Vad.hangover_mem_01 (hang : ℕ) :
    ∀ (flags : List Bool) (c : ℕ), ∀ v ∈ Vad.hangover hang flags c, v = 0 ∨ v = 1 := by
  intro flags
  induction flags with
  | nil => intro c v hv; simp [Vad.hangover] at hv
  | cons f rest ih =>
    intro c v hv
    simp only [Vad.hangover] at hv
    revert hv
    split <;> split <;> intro hv <;> rcases List.mem_cons.mp hv with rfl | h <;>
      first
        | (left; rfl)
        | (right; rfl)
        | exact ih _ v h

/-- The segment loop of `get_segments` produces exactly the flattened
hop-scaled run pairs, for 0/1-valued flags (the two conjuncts track the
`in_segment` state). -/
theorem Vad.segLoop_eq_runsAux (hopSize : ℕ) :
    ∀ (zs : List ℕ), (∀ v ∈ zs, v = 0 ∨ v = 1) →
      ∀ (i : ℕ),
        (∀ s0, Vad.segLoop hopSize zs i false s0
          = ((Vad.runsAux zs i none).map
              (fun p => [p.1 * hopSize, p.2 * hopSize])).flatten) ∧
        (∀ s, Vad.segLoop hopSize zs i true (s * hopSize)
          = ((Vad.runsAux zs i (some s)).map
              (fun p => [p.1 * hopSize, p.2 * hopSize])).flatten) := by
  intro zs
  induction zs with
  | nil =>
    intro _ i
    constructor
    · intro s0; rfl
    · intro s; rfl
  | cons v rest ih =>
    intro hv i
    have hrest := ih (fun x hx => hv x (List.mem_cons_of_mem v hx)) (i + 1)
    rcases hv v (List.mem_cons_self v rest) with rfl | rfl
    · constructor
      · intro s0
        rw [show Vad.segLoop hopSize (0 :: rest) i false s0
            = Vad.segLoop hopSize rest (i + 1) false s0 by simp [Vad.segLoop]]
        rw [show Vad.runsAux (0 :: rest) i none
            = Vad.runsAux rest (i + 1) none by simp [Vad.runsAux]]
        exact hrest.1 s0
      · intro s
        rw [show Vad.segLoop hopSize (0 :: rest) i true (s * hopSize)
            = s * hopSize :: i * hopSize
              :: Vad.segLoop hopSize rest (i + 1) false (s * hopSize)
          by simp [Vad.segLoop]]
        rw [show Vad.runsAux (0 :: rest) i (some s)
            = (s, i) :: Vad.runsAux rest (i + 1) none by simp [Vad.runsAux]]
        rw [List.map_cons, List.flatten_cons, hrest.1 (s * hopSize)]
        rfl
    · constructor
      · intro s0
        rw [show Vad.segLoop hopSize (1 :: rest) i false s0
            = Vad.segLoop hopSize rest (i + 1) true (i * hopSize) by simp [Vad.segLoop]]
        rw [show Vad.runsAux (1 :: rest) i none
            = Vad.runsAux rest (i + 1) (some i) by simp [Vad.runsAux]]
        exact hrest.2 i
      · intro s
        rw [show Vad.segLoop hopSize (1 :: rest) i true (s * hopSize)
            = Vad.segLoop hopSize rest (i + 1) true (s * hopSize) by simp [Vad.segLoop]]
        rw [show Vad.runsAux (1 :: rest) i (some s)
            = Vad.runsAux rest (i + 1) (some s) by simp [Vad.runsAux]]
        exact hrest.2 s

/-- C7 (amended): `get_segments` emits exactly one `(start, end)` pair
per maximal run of 1s of the `detect` flags, flattened in order, with
`start = firstFrameIndex*hopSize` and `end = endFrameIndex*hopSize`;
pairs are ascending and non-overlapping.  A run still open at the end of
the signal is closed at `numFrames*hopSize` (which in general differs
from the input's final sample offset). -/
theorem C7_segments (frameSize hopSize : ℕ) (eTh zTh : ℝ) (hang : ℕ) (samples : List ℚ) :
    Vad.get_segments frameSize hopSize eTh zTh hang samples
        = ((Vad.runsAux (Vad.detect frameSize hopSize eTh zTh hang samples) 0 none).map
            (fun p => [p.1 * hopSize, p.2 * hopSize])).flatten ∧
      (∀ a b,
        (a, b) ∈ Vad.runsAux (Vad.detect frameSize hopSize eTh zTh hang samples) 0 none
          ↔ Vad.IsMaxRun (Vad.detect frameSize hopSize eTh zTh hang samples) a b) ∧
      List.Pairwise (fun p q => p.2 ≤ q.1)
        (Vad.runsAux (Vad.detect frameSize hopSize eTh zTh hang samples) 0 none) := by
  refine ⟨?_, ?_, ?_⟩
  · have h01 : ∀ v ∈ Vad.detect frameSize hopSize eTh zTh hang samples, v = 0 ∨ v = 1 :=
      Vad.hangover_mem_01 hang _ 0
    exact (Vad.segLoop_eq_runsAux hopSize _ h01 0).1 0
  · intro a b
    rw [Vad.runsAux_mem _ _ 0 none (List.drop_zero _).symm (Nat.zero_le _)
      (fun _ => Or.inl rfl) (fun s hs => nomatch hs) a b]
    simp
  · exact Vad.runsAux_pairwise _ 0 none (fun s hs => nomatch hs)

/-- Speech flags of the all-ones input used below. -/
theorem Vad.speechFlags_ones_eval :
    Vad.speechFlags 4 2 (-40) (1 / 10) (List.replicate 8 1) = [true, true, true] := by
  unfold Vad.speechFlags
  rw [show Vad.numFrames 4 2 (List.replicate 8 (1 : ℚ)) = 3 from rfl,
    show List.range 3 = [0, 1, 2] from rfl]
  simp only [List.map_cons, List.map_nil]
  rw [if_pos (show Vad.IsSpeech (-40) (1 / 10)
        (Vad.frameAt 4 2 (List.replicate 8 1) 0)
      from Vad.isSpeech_replicate_one 4 (by norm_num)),
    if_pos (show Vad.IsSpeech (-40) (1 / 10)
        (Vad.frameAt 4 2 (List.replicate 8 1) 1)
      from Vad.isSpeech_replicate_one 4 (by norm_num)),
    if_pos (show Vad.IsSpeech (-40) (1 / 10)
        (Vad.frameAt 4 2 (List.replicate 8 1) 2)
      from Vad.isSpeech_replicate_one 4 (by norm_num))]

/-- C7: counterexample to the open-run clause as claimed: 8 all-one
samples with frame size 4 and hop 2 give 3 frames, all speech; the open
run is closed at `3*2 = 6`, which is neither the input length 8 nor the
last sample index 7. -/
theorem C7_segments_counterexample :
    Vad.get_segments 4 2 (-40) (1 / 10) 5 (List.replicate 8 1) = [0, 6] ∧
      (Vad.get_segments 4 2 (-40) (1 / 10) 5 (List.replicate 8 1)).getD 1 0
        ≠ (List.replicate 8 (1 : ℚ)).length ∧
      (Vad.get_segments 4 2 (-40) (1 / 10) 5 (List.replicate 8 1)).getD 1 0
        ≠ (List.replicate 8 (1 : ℚ)).length - 1 := by
  have hseg : Vad.get_segments 4 2 (-40) (1 / 10) 5 (List.replicate 8 1) = [0, 6] := by
    unfold Vad.get_segments Vad.detect
    rw [Vad.speechFlags_ones_eval]
    rfl
  refine ⟨hseg, ?_, ?_⟩ <;> rw [hseg] <;> decide

/-- C7 witness: the amended correspondence at a concrete input. -/
theorem C7_segments_witness :
    Vad.get_segments 4 2 (-40) (1 / 10) 5 (List.replicate 8 1)
      = ((Vad.runsAux (Vad.detect 4 2 (-40) (1 / 10) 5 (List.replicate 8 1)) 0 none).map
          (fun p => [p.1 * 2, p.2 * 2])).flatten :=
  (C7_segments 4 2 (-40) (1 / 10) 5 (List.replicate 8 1)).1

/-- Exact sine values at the negative half-odd multiples of `π` that occur
as `(j - p)·π` for `p = 7/2` and `j = 0, 1, 2, 3`. -/
theorem Resampler.sin_neg_half_odd_pi :
    Real.sin (-(7 / 2) * Real.pi) = 1 ∧ Real.sin (-(5 / 2) * Real.pi) = -1 ∧
    Real.sin (-(3 / 2) * Real.pi) = 1 ∧ Real.sin (-(1 / 2) * Real.pi) = -1 := by
  refine ⟨?_, ?_, ?_, ?_⟩
  · rw [show (-(7 / 2) * Real.pi : ℝ) = Real.pi / 2 - 2 * Real.pi - 2 * Real.pi by ring,
      Real.sin_sub_two_pi, Real.sin_sub_two_pi, Real.sin_pi_div_two]
  · rw [show (-(5 / 2) * Real.pi : ℝ) = -(Real.pi / 2) - 2 * Real.pi by ring,
      Real.sin_sub_two_pi, Real.sin_neg, Real.sin_pi_div_two]
  · rw [show (-(3 / 2) * Real.pi : ℝ) = Real.pi / 2 - 2 * Real.pi by ring,
      Real.sin_sub_two_pi, Real.sin_pi_div_two]
  · rw [show (-(1 / 2) * Real.pi : ℝ) = -(Real.pi / 2) by ring,
      Real.sin_neg, Real.sin_pi_div_two]

/-- Closed form of the specification weight at source position `p = 7/2`
for an offset `j - p = -m` with `1/2 ≤ m < 8`: both the sinc factor and
the Lanczos window take their generic (non-Taylor, non-cutoff) branches. -/
theorem Resampler.specWeight_seven_halves (j : ℕ) (m : ℚ) (hm : (1 : ℚ) ≤ 2 * m)
    (hj : ((j : ℝ)) - 7 / 2 = -((m : ℝ))) (hm8 : (m : ℝ) / 8 < 1)
    (s : ℝ) (hsin : Real.sin (-((m : ℝ)) * Real.pi) = s) :
    specWeight ((((7 : ℕ) : ℚ) * (1 : ℚ) / (2 : ℚ) : ℚ) : ℝ) j
      = s / (-((m : ℝ)) * Real.pi)
        * (-(Real.sin ((m : ℝ) / 8 * Real.pi)) / (-((m : ℝ) / 8) * Real.pi)) := by
  have hm' : (1 : ℝ) / 2 ≤ (m : ℝ) := by
    have : (1 : ℝ) ≤ 2 * (m : ℝ) := by exact_mod_cast hm
    linarith
  have hcast : ((((7 : ℕ) : ℚ) * (1 : ℚ) / (2 : ℚ) : ℚ) : ℝ) = 7 / 2 := by
    push_cast; norm_num
  unfold Resampler.specWeight Resampler.sincApprox Resampler.lanczosW
  rw [hcast, hj]
  rw [show ((-((m : ℝ)) : ℝ)) / 8 = -((m : ℝ) / 8) by ring]
  rw [if_neg (by
    rw [abs_mul, abs_neg, abs_of_nonneg (by linarith), abs_of_pos Real.pi_pos]
    push_neg
    nlinarith [Real.pi_gt_three])]
  rw [if_neg (by
    rw [abs_neg, abs_of_nonneg (by linarith)]
    linarith)]
  rw [if_neg (by
    rw [abs_neg, abs_of_nonneg (by linarith)]
    push_neg
    linarith)]
  rw [hsin]
  rw [show (-((m : ℝ) / 8) : ℝ) * Real.pi = -((m : ℝ) / 8 * Real.pi) by ring, Real.sin_neg]

set_option maxHeartbeats 1000000 in
/-- Under the specification formula, output sample 7 of
`resample([1,0,0,0], 1, 2)` is nonzero: the window at `p = 7/2` covers all
four input indices, the weight of index 0 is `-32·sin(7π/16)/(49π²) < 0`,
and the total weight `32/π²·(-sin(7π/16)/49 + sin(5π/16)/25 - sin(3π/16)/9
+ sin(π/16))` is positive, so the quotient is negative. -/
theorem Resampler.specResampleAt7_neg :
    Resampler.specResampleAt [1, 0, 0, 0] 1 2 7 ≠ 0 := by
  obtain ⟨s72, s52, s32, s12⟩ := Resampler.sin_neg_half_odd_pi
  have hcast : ((((7 : ℕ) : ℚ) * (1 : ℚ) / (2 : ℚ) : ℚ) : ℝ) = 7 / 2 := by
    push_cast; norm_num
  have hw0 := Resampler.specWeight_seven_halves 0 (7 / 2) (by norm_num)
    (by push_cast; norm_num) (by push_cast; norm_num) 1
    (by push_cast at s72 ⊢; convert s72 using 3)
  have hw1 := Resampler.specWeight_seven_halves 1 (5 / 2) (by norm_num)
    (by push_cast; norm_num) (by push_cast; norm_num) (-1)
    (by push_cast at s52 ⊢; convert s52 using 3)
  have hw2 := Resampler.specWeight_seven_halves 2 (3 / 2) (by norm_num)
    (by push_cast; norm_num) (by push_cast; norm_num) 1
    (by push_cast at s32 ⊢; convert s32 using 3)
  have hw3 := Resampler.specWeight_seven_halves 3 (1 / 2) (by norm_num)
    (by push_cast; norm_num) (by push_cast; norm_num) (-1)
    (by push_cast at s12 ⊢; convert s12 using 3)
  simp only [Resampler.specResampleAt]
  rw [show [(1 : ℝ), 0, 0, 0].length = 4 from rfl]
  rw [Finset.filter_true_of_mem (fun j hj => by
    rw [Finset.mem_range] at hj
    rw [hcast, abs_le]
    interval_cases j <;> constructor <;> norm_num)]
  simp only [Finset.sum_range_succ, Finset.sum_range_zero]
  rw [hw0, hw1, hw2, hw3]
  rw [show List.getD [(1 : ℝ), 0, 0, 0] 0 0 = 1 from rfl,
    show List.getD [(1 : ℝ), 0, 0, 0] 1 0 = 0 from rfl,
    show List.getD [(1 : ℝ), 0, 0, 0] 2 0 = 0 from rfl,
    show List.getD [(1 : ℝ), 0, 0, 0] 3 0 = 0 from rfl]
  push_cast
  simp only [zero_add, one_mul, zero_mul, add_zero]
  have hp1 : (3.1415 : ℝ) < Real.pi := Real.pi_gt_d4
  have hp2 : Real.pi < 3.1416 := Real.pi_lt_d4
  have hP : (0 : ℝ) < Real.pi := Real.pi_pos
  have hS7 : 0 < Real.sin (7 / 2 / 8 * Real.pi) :=
    Real.sin_pos_of_pos_of_lt_pi (by positivity) (by nlinarith)
  have hS5 : 0 < Real.sin (5 / 2 / 8 * Real.pi) :=
    Real.sin_pos_of_pos_of_lt_pi (by positivity) (by nlinarith)
  apply ne_of_lt
  apply div_neg_of_neg_of_pos
  · apply mul_neg_of_neg_of_pos
    · apply div_neg_of_pos_of_neg one_pos
      nlinarith
    · rw [show (-(7 / 2 / 8) : ℝ) * Real.pi = -(7 / 2 / 8 * Real.pi) by ring,
        neg_div_neg_eq]
      apply div_pos hS7
      positivity
  · have hcube : Real.pi ^ 3 < 32 := by
      nlinarith [pow_lt_pow_left₀ hp2 hP.le (by norm_num : (3 : ℕ) ≠ 0)]
    have b7 : Real.sin (7 / 2 / 8 * Real.pi) ≤ 1 := Real.sin_le_one _
    have b3 : Real.sin (3 / 2 / 8 * Real.pi) < 3 / 2 / 8 * Real.pi :=
      Real.sin_lt (by positivity)
    have b1 : 1 / 2 / 8 * Real.pi - (1 / 2 / 8 * Real.pi) ^ 3 / 4
        < Real.sin (1 / 2 / 8 * Real.pi) :=
      Real.sin_gt_sub_cube (by positivity) (by nlinarith)
    have hE : 0 < -(Real.sin (7 / 2 / 8 * Real.pi)) / 49
        + Real.sin (5 / 2 / 8 * Real.pi) / 25
        - Real.sin (3 / 2 / 8 * Real.pi) / 9 + Real.sin (1 / 2 / 8 * Real.pi) := by
      nlinarith
    have hsum : 1 / (-(7 / 2 : ℝ) * Real.pi)
          * (-Real.sin (7 / 2 / 8 * Real.pi) / (-(7 / 2 / 8 : ℝ) * Real.pi))
        + -1 / (-(5 / 2 : ℝ) * Real.pi)
          * (-Real.sin (5 / 2 / 8 * Real.pi) / (-(5 / 2 / 8 : ℝ) * Real.pi))
        + 1 / (-(3 / 2 : ℝ) * Real.pi)
          * (-Real.sin (3 / 2 / 8 * Real.pi) / (-(3 / 2 / 8 : ℝ) * Real.pi))
        + -1 / (-(1 / 2 : ℝ) * Real.pi)
          * (-Real.sin (1 / 2 / 8 * Real.pi) / (-(1 / 2 / 8 : ℝ) * Real.pi))
        = 32 / Real.pi ^ 2 * (-(Real.sin (7 / 2 / 8 * Real.pi)) / 49
            + Real.sin (5 / 2 / 8 * Real.pi) / 25
            - Real.sin (3 / 2 / 8 * Real.pi) / 9 + Real.sin (1 / 2 / 8 * Real.pi)) := by
      field_simp
      ring
    rw [hsum]
    exact mul_pos (by positivity) hE

/-- In the code, output sample 7 of `resample([1,0,0,0], 1, 2)` is exactly
zero: the only nonzero input sample is index 0, at distance `7/2` from the
source position `p = 7/2`, and the fused weight evaluates the Lanczos
window at `(j - p)·π/8 = -7π/16`, whose absolute value exceeds 1, so the
window's cutoff branch returns 0. -/
theorem Resampler.resample_sample7_zero :
    (Resampler.resample [1, 0, 0, 0] 1 2).getD 7 0 = 0 := by
  have hlen : ⌊(([(1 : ℝ), 0, 0, 0].length : ℚ)) * ((2 : ℚ) / (1 : ℚ))⌋₊ = 8 := by
    rw [show (([(1 : ℝ), 0, 0, 0].length : ℚ)) * ((2 : ℚ) / (1 : ℚ)) = 8 by norm_num]
    rw [Nat.floor_eq_iff (by norm_num)]
    norm_num
  simp only [Resampler.resample]
  rw [List.getD_eq_getElem?_getD, List.getElem?_map,
    List.getElem?_range (by rw [hlen]; norm_num), Option.map_some', Option.getD_some]
  rw [show ((7 : ℕ) : ℚ) / ((2 : ℚ) / (1 : ℚ)) = 7 / 2 by norm_num]
  rw [show ⌊(7 / 2 : ℚ)⌋₊ = 3 by
    rw [Nat.floor_eq_iff (by norm_num)]
    norm_num]
  rw [show min (3 + 8) [(1 : ℝ), 0, 0, 0].length = 4 by norm_num]
  rw [show (3 - 8 : ℕ) = 0 from rfl]
  rw [show List.range' 0 (4 - 0) = [0, 1, 2, 3] from rfl]
  simp only [List.foldl_cons, List.foldl_nil]
  have hw0 : Resampler.resampleWeight ((7 / 2 : ℚ) : ℝ) 0 = 0 := by
    unfold Resampler.resampleWeight Resampler.lanczosW
    rw [if_pos]
    · exact mul_zero _
    · have habs : |(((0 : ℕ) : ℝ) - ((7 / 2 : ℚ) : ℝ)) * Real.pi * (1 / 8)|
          = 7 / 16 * Real.pi := by
        push_cast
        rw [abs_of_nonpos (by nlinarith [Real.pi_pos])]
        ring
      rw [habs]
      nlinarith [Real.pi_gt_three]
  rw [hw0]
  norm_num

/-- C4: code bug in the resampling weight.  The spec's formula weights
input sample `j` by `sinc(π(j - p))·lanczos((j - p)/W)` with window
`W = 8`; the code instead evaluates the Lanczos window at
`(j - p)·π/8`, an argument `π` times too large, so contributions are cut
off once `|j - p| ≥ 8/π ≈ 2.55` instead of `|j - p| ≥ 8`.  On the input
`[1,0,0,0]` upsampled from rate 1 to rate 2, output sample 7 (source
position `p = 7/2`) is `0` in the code, while the specification formula
gives a nonzero (negative) value. -/
theorem C4_lanczos_window_argument :
    (Resampler.resample [1, 0, 0, 0] 1 2).getD 7 0 = 0 ∧
      Resampler.specResampleAt [1, 0, 0, 0] 1 2 7 ≠ 0 :=
  ⟨Resampler.resample_sample7_zero, Resampler.specResampleAt7_neg⟩
